import Mathlib

/-!
Verification of the repository-discovery subsystem of a multi-tenant
chart-hosting server (`pkg/chartmuseum/server/multitenant/handlers_repos.go`).

The Go code is shallowly embedded: strings are modelled at the character-list
level (`List Char`), Go's `map[string]struct{}` uniqueness set followed by
`sort.Strings` is modelled by `List.dedup` followed by a lexicographic
insertion sort, and the nondeterministic iteration order of a Go map is made
explicit through `...Iter` variants that take the iteration sequence as an
argument (constrained to be a permutation of the set's keys).
-/

namespace CM

/-- Lexicographic `≤` on character lists, the order used by Go's
`sort.Strings` (bytewise comparison; on character lists this is the
codepoint-wise lexicographic order). -/
def lexLe : List Char → List Char → Bool
  | [], _ => true
  | _ :: _, [] => false
  | a :: as, b :: bs => if a < b then true else if b < a then false else lexLe as bs

/-- `lexLe` lifted to `String` via the underlying character list. -/
def strLe (a b : String) : Bool := lexLe a.toList b.toList

/-- `strLe` as a proposition, for use with `List.insertionSort`. -/
def strLeR (a b : String) : Prop := strLe a b = true

instance : DecidableRel strLeR := fun _ _ => inferInstanceAs (Decidable (_ = true))

/-- Model of Go's `sort.Strings`: lexicographic sort of a string slice. -/
def sortStrings (l : List String) : List String := List.insertionSort strLeR l

/-- `beginsWith pat s` holds when `pat` occurs at the start of `s`
(the matching step of Go's `strings.Index`). -/
def beginsWith : List Char → List Char → Bool
  | [], _ => true
  | _ :: _, [] => false
  | p :: ps, s :: ss => p == s && beginsWith ps ss

/-- Model of Go's `strings.Index(s, pat)`: index of the first occurrence of
`pat` in `s`, `none` standing for Go's `-1`; the empty pattern yields `0`. -/
def findSubstr (pat : List Char) : List Char → Option Nat
  | [] => if pat = [] then some 0 else none
  | c :: s =>
    if beginsWith pat (c :: s) then some 0 else (findSubstr pat s).map (· + 1)

/-- Model of Go's `strings.IndexByte(s, c)`: index of the first occurrence of
the character `c` in `s`, `none` standing for Go's `-1`. -/
def idxOfByte (c : Char) : List Char → Option Nat
  | [] => none
  | a :: s => if a == c then some 0 else (idxOfByte c s).map (· + 1)

/-- Model of Go's `strings.TrimLeft(s, "/")`: drop all leading slashes. -/
def trimLeftSlashes (s : List Char) : List Char := s.dropWhile (· == '/')

/-- The literal delimiter `"/charts/"` used by the primary heuristic. -/
def chartsDelim : List Char := "/charts/".toList

/-- Fallback heuristic of `discoverReposFromStorage`: Go's
`if i := strings.IndexByte(p, '/'); i > 0 { set[p[:i]] }` — the first
`/`-delimited segment, provided a separator exists at a position `> 0`. -/
def fallbackFirstSeg (p : List Char) : Option (List Char) :=
  match idxOfByte '/' p with
  | some i => if 0 < i then some (p.take i) else none
  | none => none

/-- Body of the loop in `discoverReposFromStorage` after the trim: skip the
empty path, cut before the first `"/charts/"` when it sits at a position
`> 0` (skipping an empty cut, as the Go code re-checks), otherwise fall back
to the first path segment.  `none` means the object is excluded. -/
def extractRepoTrimmed (p : List Char) : Option (List Char) :=
  if p = [] then none
  else
    match findSubstr chartsDelim p with
    | some idx =>
      if 0 < idx then
        if p.take idx ≠ [] then some (p.take idx) else none
      else fallbackFirstSeg p
    | none => fallbackFirstSeg p

/-- Per-object body of the loop in `discoverReposFromStorage`:
`p := strings.TrimLeft(o.Path, "/")` followed by the heuristics. -/
def extractRepo (path : List Char) : Option (List Char) :=
  extractRepoTrimmed (trimLeftSlashes path)

/-- `extractRepo` on `String`s, the form consumed by the discoverer. -/
def inferRepoName (path : String) : Option String :=
  (extractRepo path.toList).map String.mk

/-- The spec's wording of the per-path inference, on an already-trimmed
path: if the path contains the literal segment `"/charts/"` at a position
greater than zero, the name is the prefix before that (first such)
delimiter; otherwise, if the path contains a `'/'` at a position greater
than zero, the name is the first `'/'`-delimited segment; otherwise no name
is inferred. -/
def inferNameSpecTrimmed (p : List Char) : Option String :=
  if p = [] then none
  else
    match (List.range p.length).find?
        (fun i => decide (0 < i) && beginsWith chartsDelim (p.drop i)) with
    | some i => some (String.mk (p.take i))
    | none =>
      if (p.drop 1).elem '/' then
        some (String.mk (p.takeWhile (fun c => !(c == '/'))))
      else none

/-- The per-path inference of the Generic Object Discoverer as the spec
words it: strip leading slashes, skip empty paths, then apply the two
heuristics of `inferNameSpecTrimmed`. -/
def inferNameSpec (path : String) : Option String :=
  inferNameSpecTrimmed (trimLeftSlashes path.toList)

/-- A stored object as returned by the Storage Listing Collaborator: an
opaque record with a `Path` attribute. -/
structure StoredObject where
  Path : String
deriving DecidableEq

/-- The storage backend, consumed only through `ListObjects`; the Go `error`
is modelled by its message (`err.Error()`), which is all the handler uses. -/
structure Storage where
  ListObjects : String → Except String (List StoredObject)

/-- The multiset of repo names inserted into the Go `map[string]struct{}` by
the loop of `discoverReposFromStorage`. -/
def storageKeys (objs : List StoredObject) : List String :=
  objs.filterMap (fun o => inferRepoName o.Path)

/-- `discoverReposFromStorage` with the Go map's iteration order made
explicit: `iter` is the sequence in which the set's keys are visited when
filling `names`; callers constrain it to a permutation of the distinct keys. -/
def discoverReposFromStorageIter (st : Storage) (pfx : String)
    (iter : List String) : Except String (List String) :=
  match st.ListObjects pfx with
  | .error e => .error e
  | .ok _ => .ok (sortStrings iter)

/-- Go `discoverReposFromStorage`: list objects (propagating any error),
collect repo names into a uniqueness set, then sort.  The set and its
iteration are modelled canonically by `dedup`. -/
def discoverReposFromStorage (st : Storage) (pfx : String) :
    Except String (List String) :=
  match st.ListObjects pfx with
  | .error e => .error e
  | .ok objs => .ok (sortStrings (storageKeys objs).dedup)

/-- One entry of `os.ReadDir` on the local root, together with the directory
listings that the two `filepath.Glob` calls for this entry would see:
`files` are the names of the entries directly under it, `chartsFiles` the
names of the entries under its `charts` subdirectory.  Entry names are
assumed free of glob metacharacters, so `*.tgz` is suffix matching. -/
structure DirEntry where
  name : String
  isDir : Bool
  files : List String
  chartsFiles : List String
deriving DecidableEq

/-- The local-filesystem state read by `discoverReposLocalFS`:
`rootDir` is the value of `STORAGE_LOCAL_ROOTDIR` (`""` when unset),
`rootIsDir` whether `os.Stat` succeeded and reported a directory,
`readDirOk` whether `os.ReadDir` succeeded, and `entries` its result. -/
structure LocalFS where
  rootDir : String
  rootIsDir : Bool
  readDirOk : Bool
  entries : List DirEntry
deriving DecidableEq

/-- Whether a directory-entry name matches the glob pattern `*.tgz`. -/
def isTgzFile (f : String) : Bool := List.isSuffixOf ".tgz".toList f.toList

/-- The loop body of `discoverReposLocalFS`: a candidate entry qualifies when
it is a directory and either glob (`<repo>/charts/*.tgz` first, then
`<repo>/*.tgz`) matches at least one name. -/
def entryQualifies (e : DirEntry) : Bool :=
  e.isDir && (e.chartsFiles.any isTgzFile || e.files.any isTgzFile)

/-- The multiset of names inserted into the Go set by `discoverReposLocalFS`. -/
def localKeys (fs : LocalFS) : List String :=
  (fs.entries.filter entryQualifies).map DirEntry.name

/-- `discoverReposLocalFS` with the Go map's iteration order made explicit,
as in `discoverReposFromStorageIter`.  `none` models the Go `(nil, false)`
inapplicability signal. -/
def discoverReposLocalFSIter (fs : LocalFS) (iter : List String) :
    Option (List String) :=
  if fs.rootDir = "" then none
  else if !fs.rootIsDir then none
  else if !fs.readDirOk then none
  else if iter.isEmpty then none
  else some (sortStrings iter)

/-- Go `discoverReposLocalFS`: inapplicable when the root env var is empty,
the root is not an existing directory, `ReadDir` fails, or no entry
qualifies; otherwise the sorted set of qualifying directory names. -/
def discoverReposLocalFS (fs : LocalFS) : Option (List String) :=
  discoverReposLocalFSIter fs (localKeys fs).dedup

/-- A response body: either the JSON array of names or `gin.H` with an
`"error"` message. -/
inductive ResponseBody where
  | names : List String → ResponseBody
  | errMsg : String → ResponseBody
deriving DecidableEq

/-- An HTTP response as produced by `c.JSON(status, body)`. -/
structure HttpResponse where
  status : Nat
  body : ResponseBody
deriving DecidableEq

/-- Which collaborators a request actually touched: whether the local
filesystem discovery was entered, and whether `StorageBackend.ListObjects`
was called. -/
structure Effects where
  localFSTried : Bool
  storageListCalled : Bool
deriving DecidableEq

/-- The server configuration relevant to the Access Gate; `enableListRepos`
stands for the `ENABLE_LIST_REPOS` environment toggle mentioned by the
deployment scripts. -/
structure ServerConfig where
  enableListRepos : Bool
deriving DecidableEq

/-- Go `allowListRepos`: `func (s *MultiTenantServer) allowListRepos() bool
\x7b return true \x7d` — a constant, ignoring all configuration. -/
def allowListRepos (_cfg : ServerConfig) : Bool := true

/-- `listRepositoriesHandler` parameterised on the Access Gate's verdict:
deny → 403 and stop; otherwise try `discoverReposLocalFS`, short-circuiting
on success; otherwise `discoverReposFromStorage` with an empty prefix,
turning its error into a 500. -/
def listRepositoriesHandlerGate (gate : Bool) (fs : LocalFS) (st : Storage) :
    HttpResponse × Effects :=
  if !gate then
    (⟨403, .errMsg "listing repositories is disabled"⟩, ⟨false, false⟩)
  else
    match discoverReposLocalFS fs with
    | some names => (⟨200, .names names⟩, ⟨true, false⟩)
    | none =>
      match discoverReposFromStorage st "" with
      | .error e => (⟨500, .errMsg e⟩, ⟨true, true⟩)
      | .ok names => (⟨200, .names names⟩, ⟨true, true⟩)

/-- Go `listRepositoriesHandler`: the gate verdict comes from
`s.allowListRepos()`. -/
def listRepositoriesHandler (cfg : ServerConfig) (fs : LocalFS)
    (st : Storage) : HttpResponse × Effects :=
  listRepositoriesHandlerGate (allowListRepos cfg) fs st

/-- A local tree with two qualifying repositories (one nested layout, one
flat) and one non-qualifying directory, as in the spec's scenarios. -/
def sampleFS : LocalFS :=
  ⟨"/charts", true, true,
   [⟨"repoB", true, ["api-1.0.0.tgz"], []⟩,
    ⟨"repoA", true, [], ["webapp-0.1.0.tgz"]⟩,
    ⟨"notes", true, ["readme.txt"], []⟩]⟩

/-- A local-FS state with the root env var unset. -/
def unsetFS : LocalFS := ⟨"", false, true, []⟩

/-- The storage listing of the spec's scenario
`["t1/charts/a.tgz","t2/b.tgz","noslash"]`. -/
def sampleObjs : List StoredObject := [⟨"t1/charts/a.tgz"⟩, ⟨"t2/b.tgz"⟩, ⟨"noslash"⟩]

/-- A backend whose listing always succeeds with `sampleObjs`. -/
def sampleStorage : Storage := ⟨fun _ => .ok sampleObjs⟩

/-- A backend whose listing always fails. -/
def failingStorage : Storage := ⟨fun _ => .error "listing failed"⟩

theorem lexLe_total : ∀ a b : List Char, lexLe a b = true ∨ lexLe b a = true := by
  intro a
  induction a with
  | nil => intro b; left; rfl
  | cons x xs ih =>
    intro b
    cases b with
    | nil => right; rfl
    | cons y ys =>
      by_cases hxy : x < y
      · left; simp [lexLe, hxy]
      · by_cases hyx : y < x
        · right; simp [lexLe, hyx]
        · have hxy' : x = y := le_antisymm (not_lt.mp hyx) (not_lt.mp hxy)
          subst hxy'
          rcases ih ys with h | h
          · left; simp [lexLe, lt_irrefl, h]
          · right; simp [lexLe, lt_irrefl, h]

theorem lexLe_trans :
    ∀ a b c : List Char, lexLe a b = true → lexLe b c = true → lexLe a c = true := by
  intro a
  induction a with
  | nil => intro b c _ _; rfl
  | cons x xs ih =>
    intro b c hab hbc
    cases b with
    | nil => simp [lexLe] at hab
    | cons y ys =>
      cases c with
      | nil => simp [lexLe] at hbc
      | cons z zs =>
        simp only [lexLe] at hab hbc ⊢
        by_cases hxy : x < y
        · by_cases hyz : y < z
          · simp [lt_trans hxy hyz]
          · by_cases hzy : z < y
            · simp [hyz, hzy] at hbc
            · have hyz' : y = z := le_antisymm (not_lt.mp hzy) (not_lt.mp hyz)
              subst hyz'
              simp [hxy]
        · by_cases hyx : y < x
          · simp [hxy, hyx] at hab
          · have hxy' : x = y := le_antisymm (not_lt.mp hyx) (not_lt.mp hxy)
            subst hxy'
            have hab' : lexLe xs ys = true := by simpa [lt_irrefl] using hab
            by_cases hxz : x < z
            · simp [hxz]
            · by_cases hzx : z < x
              · simp [hxz, hzx] at hbc
              · have hxz' : x = z := le_antisymm (not_lt.mp hzx) (not_lt.mp hxz)
                subst hxz'
                have hbc' : lexLe ys zs = true := by simpa [lt_irrefl] using hbc
                simpa [lt_irrefl] using ih ys zs hab' hbc'

theorem lexLe_antisymm :
    ∀ a b : List Char, lexLe a b = true → lexLe b a = true → a = b := by
  intro a
  induction a with
  | nil =>
    intro b _ hba
    cases b with
    | nil => rfl
    | cons y ys => simp [lexLe] at hba
  | cons x xs ih =>
    intro b hab hba
    cases b with
    | nil => simp [lexLe] at hab
    | cons y ys =>
      simp only [lexLe] at hab hba
      by_cases hxy : x < y
      · simp [lt_asymm hxy, hxy] at hba
      · by_cases hyx : y < x
        · simp [hxy, hyx] at hab
        · have hxy' : x = y := le_antisymm (not_lt.mp hyx) (not_lt.mp hxy)
          subst hxy'
          have hab' : lexLe xs ys = true := by simpa [lt_irrefl] using hab
          have hba' : lexLe ys xs = true := by simpa [lt_irrefl] using hba
          rw [ih ys hab' hba']

instance : IsTotal String strLeR := ⟨fun a b => lexLe_total a.toList b.toList⟩

instance : IsTrans String strLeR :=
  ⟨fun a b c => lexLe_trans a.toList b.toList c.toList⟩

instance : IsAntisymm String strLeR := by
  refine ⟨fun a b hab hba => ?_⟩
  exact String.ext (lexLe_antisymm a.toList b.toList hab hba)

theorem sortStrings_sorted (l : List String) : List.Sorted strLeR (sortStrings l) :=
  List.sorted_insertionSort strLeR l

theorem sortStrings_perm (l : List String) : (sortStrings l).Perm l :=
  List.perm_insertionSort strLeR l

theorem sortStrings_eq_of_perm {l₁ l₂ : List String} (h : l₁.Perm l₂) :
    sortStrings l₁ = sortStrings l₂ :=
  List.eq_of_perm_of_sorted
    (((sortStrings_perm l₁).trans h).trans (sortStrings_perm l₂).symm)
    (sortStrings_sorted l₁) (sortStrings_sorted l₂)

theorem mem_sortStrings {a : String} {l : List String} :
    a ∈ sortStrings l ↔ a ∈ l :=
  (sortStrings_perm l).mem_iff

theorem sortStrings_nodup {l : List String} (h : l.Nodup) :
    (sortStrings l).Nodup :=
  ((sortStrings_perm l).nodup_iff).mpr h

theorem beginsWith_nonempty {p : Char} {ps s : List Char}
    (h : beginsWith (p :: ps) s = true) : ∃ t, s = p :: t := by
  cases s with
  | nil => simp [beginsWith] at h
  | cons a t =>
    simp only [beginsWith, Bool.and_eq_true, beq_iff_eq] at h
    exact ⟨t, by rw [h.1]⟩

theorem beginsWith_of_take {pat s : List Char} {k : Nat}
    (h : beginsWith pat (s.take k) = true) : beginsWith pat s = true := by
  induction pat generalizing s k with
  | nil => rfl
  | cons p ps ih =>
    cases s with
    | nil => simpa using h
    | cons a t =>
      cases k with
      | zero => simp [beginsWith] at h
      | succ k =>
        simp only [List.take, beginsWith, Bool.and_eq_true] at h ⊢
        exact ⟨h.1, ih h.2⟩

theorem findSubstr_at {pat s : List Char} {i : Nat}
    (h : findSubstr pat s = some i) : beginsWith pat (s.drop i) = true := by
  induction s generalizing i with
  | nil =>
    simp only [findSubstr] at h
    rcases em (pat = []) with hp | hp
    · subst hp; rfl
    · simp [hp] at h
  | cons c t ih =>
    simp only [findSubstr] at h
    rcases em (beginsWith pat (c :: t) = true) with hb | hb
    · simp only [hb, if_true, Option.some.injEq] at h
      subst h; exact hb
    · simp only [if_neg hb, Option.map_eq_some'] at h
      obtain ⟨j, hj, hji⟩ := h
      cases i with
      | zero => omega
      | succ i' =>
        have : j = i' := by omega
        subst this
        simpa using ih hj

theorem findSubstr_min {pat s : List Char} {i : Nat}
    (h : findSubstr pat s = some i) :
    ∀ j < i, beginsWith pat (s.drop j) = false := by
  induction s generalizing i with
  | nil =>
    intro j hj
    simp only [findSubstr] at h
    rcases em (pat = []) with hp | hp
    · simp only [hp, if_true, Option.some.injEq] at h; omega
    · simp [hp] at h
  | cons c t ih =>
    intro j hj
    simp only [findSubstr] at h
    rcases em (beginsWith pat (c :: t) = true) with hb | hb
    · simp only [hb, if_true, Option.some.injEq] at h; omega
    · simp only [if_neg hb, Option.map_eq_some'] at h
      obtain ⟨k, hk, hki⟩ := h
      cases j with
      | zero => simpa using Bool.eq_false_iff.mpr hb
      | succ j' =>
        have : j' < k := by omega
        simpa using ih hk j' this

theorem findSubstr_lt_length {p : Char} {ps s : List Char} {i : Nat}
    (h : findSubstr (p :: ps) s = some i) : i < s.length := by
  induction s generalizing i with
  | nil => simp [findSubstr] at h
  | cons c t ih =>
    simp only [findSubstr] at h
    rcases em (beginsWith (p :: ps) (c :: t) = true) with hb | hb
    · simp only [hb, if_true, Option.some.injEq] at h
      subst h; simp
    · simp only [if_neg hb, Option.map_eq_some'] at h
      obtain ⟨k, hk, hki⟩ := h
      have := ih hk
      simp only [List.length_cons]
      omega

theorem findSubstr_take_eq_none {pat s : List Char} {i : Nat} (hp : pat ≠ [])
    (hfind : findSubstr pat s = some i) :
    findSubstr pat (s.take i) = none := by
  cases hfs : findSubstr pat (s.take i) with
  | none => rfl
  | some j =>
    exfalso
    obtain ⟨p, ps, rfl⟩ : ∃ p ps, pat = p :: ps := by
      cases pat with
      | nil => exact absurd rfl hp
      | cons p ps => exact ⟨p, ps, rfl⟩
    have hjlt : j < (s.take i).length := findSubstr_lt_length hfs
    have hji : j < i := lt_of_lt_of_le hjlt (List.length_take_le i s)
    have hat : beginsWith (p :: ps) ((s.take i).drop j) = true := findSubstr_at hfs
    rw [List.drop_take] at hat
    have : beginsWith (p :: ps) (s.drop j) = true := beginsWith_of_take hat
    have hmin := findSubstr_min hfind j hji
    rw [hmin] at this
    exact Bool.false_ne_true this

theorem idxOfByte_at {c : Char} {s : List Char} {i : Nat}
    (h : idxOfByte c s = some i) : s.drop i = c :: s.drop (i + 1) := by
  induction s generalizing i with
  | nil => simp [idxOfByte] at h
  | cons a t ih =>
    simp only [idxOfByte] at h
    rcases em ((a == c) = true) with hb | hb
    · simp only [hb, if_true, Option.some.injEq] at h
      subst h
      simp [beq_iff_eq.mp hb]
    · simp only [if_neg hb, Option.map_eq_some'] at h
      obtain ⟨k, hk, hki⟩ := h
      cases i with
      | zero => omega
      | succ i' =>
        have : k = i' := by omega
        subst this
        simpa using ih hk

theorem idxOfByte_take {c : Char} {s : List Char} {i : Nat}
    (h : idxOfByte c s = some i) : ∀ x ∈ s.take i, x ≠ c := by
  induction s generalizing i with
  | nil => intro x hx; simp at hx
  | cons a t ih =>
    intro x hx
    simp only [idxOfByte] at h
    rcases em ((a == c) = true) with hb | hb
    · simp only [hb, if_true, Option.some.injEq] at h
      subst h
      simp at hx
    · simp only [if_neg hb, Option.map_eq_some'] at h
      obtain ⟨k, hk, hki⟩ := h
      cases i with
      | zero => simp at hx
      | succ i' =>
        have hki' : k = i' := by omega
        subst hki'
        simp only [List.take, List.mem_cons] at hx
        rcases hx with rfl | hx
        · exact fun hc => hb (beq_iff_eq.mpr hc)
        · exact ih hk x hx

theorem idxOfByte_none {c : Char} {s : List Char}
    (h : idxOfByte c s = none) : c ∉ s := by
  induction s with
  | nil => simp
  | cons a t ih =>
    simp only [idxOfByte] at h
    rcases em ((a == c) = true) with hb | hb
    · simp [hb] at h
    · simp only [if_neg hb, Option.map_eq_none'] at h
      simp only [List.mem_cons, not_or]
      exact ⟨fun hc => hb (beq_iff_eq.mpr hc.symm), ih h⟩

theorem trimLeftSlashes_head {s : List Char} {a : Char} {t : List Char}
    (h : trimLeftSlashes s = a :: t) : a ≠ '/' := by
  induction s with
  | nil => simp [trimLeftSlashes] at h
  | cons c cs ih =>
    simp only [trimLeftSlashes, List.dropWhile] at h
    cases hb : (c == '/') with
    | true =>
      rw [hb] at h
      exact ih h
    | false =>
      rw [hb] at h
      cases h
      exact fun hc => by simp [hc] at hb

theorem findSubstr_none_all {pat : List Char} : ∀ {s : List Char},
    findSubstr pat s = none → pat ≠ [] ∧ ∀ j, beginsWith pat (s.drop j) = false := by
  intro s
  induction s with
  | nil =>
    intro h
    simp only [findSubstr] at h
    rcases em (pat = []) with hp | hp
    · simp [hp] at h
    · refine ⟨hp, fun j => ?_⟩
      obtain ⟨q, qs, rfl⟩ : ∃ q qs, pat = q :: qs := by
        cases pat with
        | nil => exact absurd rfl hp
        | cons q qs => exact ⟨q, qs, rfl⟩
      simp [beginsWith]
  | cons c t ih =>
    intro h
    simp only [findSubstr] at h
    rcases em (beginsWith pat (c :: t) = true) with hb | hb
    · simp [hb] at h
    · simp only [if_neg hb, Option.map_eq_none'] at h
      obtain ⟨hp, hall⟩ := ih h
      refine ⟨hp, fun j => ?_⟩
      cases j with
      | zero => simpa using Bool.eq_false_iff.mpr hb
      | succ j' => simpa using hall j'

theorem findSubstr_lt_length' {pat s : List Char} {i : Nat} (hp : pat ≠ [])
    (h : findSubstr pat s = some i) : i < s.length := by
  obtain ⟨q, qs, rfl⟩ : ∃ q qs, pat = q :: qs := by
    cases pat with
    | nil => exact absurd rfl hp
    | cons q qs => exact ⟨q, qs, rfl⟩
  exact findSubstr_lt_length h

theorem find?_range'_eq_some {q : Nat → Bool} :
    ∀ (n : Nat) {s i : Nat}, s ≤ i → i < s + n → q i = true →
      (∀ j, s ≤ j → j < i → q j = false) →
      (List.range' s n).find? q = some i := by
  intro n
  induction n with
  | zero => intro s i h1 h2 _ _; omega
  | succ n ih =>
    intro s i hlo hhi hq hmin
    rw [List.range'_succ]
    rcases eq_or_lt_of_le hlo with rfl | hlt
    · rw [List.find?_cons_of_pos _ hq]
    · rw [List.find?_cons_of_neg _ (by simp [hmin s le_rfl hlt])]
      exact ih (by omega) (by omega) hq (fun j h1 h2 => hmin j (by omega) h2)

theorem find?_range_eq_some {q : Nat → Bool} {n i : Nat} (hi : i < n)
    (hq : q i = true) (hmin : ∀ j < i, q j = false) :
    (List.range n).find? q = some i := by
  rw [List.range_eq_range']
  exact find?_range'_eq_some n (Nat.zero_le i) (by omega) hq (fun j _ hj => hmin j hj)

theorem takeWhile_eq_take_of_idxOfByte {c : Char} : ∀ {l : List Char} {i : Nat},
    idxOfByte c l = some i → l.takeWhile (fun x => !(x == c)) = l.take i := by
  intro l
  induction l with
  | nil => intro i h; simp [idxOfByte] at h
  | cons a t ih =>
    intro i h
    simp only [idxOfByte] at h
    rcases em ((a == c) = true) with hb | hb
    · simp only [hb, if_true, Option.some.injEq] at h
      subst h
      simp [List.takeWhile_cons, hb]
    · simp only [if_neg hb, Option.map_eq_some'] at h
      obtain ⟨k, hk, hki⟩ := h
      subst hki
      rw [List.takeWhile_cons, List.take_succ_cons]
      simp only [Bool.eq_false_iff.mpr hb, Bool.not_false, if_true]
      rw [ih hk]

theorem fallbackFirstSeg_spec {a : Char} {t : List Char} (ha : a ≠ '/') :
    fallbackFirstSeg (a :: t) =
      if t.elem '/' then some ((a :: t).takeWhile (fun x => !(x == '/')))
      else none := by
  have hab : (a == '/') = false := by simp [ha]
  have hrec : idxOfByte '/' (a :: t) = (idxOfByte '/' t).map (· + 1) := by
    simp [idxOfByte, hab]
  unfold fallbackFirstSeg
  rw [hrec]
  cases hio : idxOfByte '/' t with
  | none =>
    have hmem : '/' ∉ t := idxOfByte_none hio
    simp [hmem]
  | some k =>
    have hmem : '/' ∈ t := by
      have hat := idxOfByte_at hio
      have : '/' ∈ t.drop k := by rw [hat]; exact List.mem_cons_self _ _
      exact List.mem_of_mem_drop this
    have helem : t.elem '/' = true := List.elem_iff.mpr hmem
    simp only [Option.map_some', helem, if_true]
    have h1 : 0 < k + 1 := Nat.succ_pos k
    rw [if_pos h1, List.takeWhile_cons, List.take_succ_cons]
    simp only [hab, Bool.not_false, if_true]
    rw [takeWhile_eq_take_of_idxOfByte hio]

theorem extractRepoTrimmed_matches_spec :
    ∀ p : List Char, (∀ a t, p = a :: t → a ≠ '/') →
      (extractRepoTrimmed p).map String.mk = inferNameSpecTrimmed p := by
  intro p hhead
  cases p with
  | nil => rfl
  | cons a t =>
    have ha : a ≠ '/' := hhead a t rfl
    have hcd : chartsDelim = '/' :: "charts/".toList := rfl
    unfold extractRepoTrimmed inferNameSpecTrimmed
    rw [if_neg (List.cons_ne_nil a t), if_neg (List.cons_ne_nil a t)]
    cases hf : findSubstr chartsDelim (a :: t) with
    | some idx =>
      have hidx : 0 < idx := by
        rcases Nat.eq_zero_or_pos idx with rfl | h
        · exfalso
          have hb := findSubstr_at hf
          rw [hcd] at hb
          obtain ⟨t', ht'⟩ := beginsWith_nonempty (by simpa using hb)
          exact ha (List.head_eq_of_cons_eq ht')
        · exact h
      have hfind : (List.range (a :: t).length).find?
          (fun i => decide (0 < i) && beginsWith chartsDelim ((a :: t).drop i))
            = some idx := by
        apply find?_range_eq_some
        · exact findSubstr_lt_length' (by rw [hcd]; exact List.cons_ne_nil _ _) hf
        · simp [hidx, findSubstr_at hf]
        · intro j hj
          cases j with
          | zero => simp
          | succ j' => simpa using findSubstr_min hf _ hj
      rw [hfind]
      obtain ⟨k, rfl⟩ : ∃ k, idx = k + 1 := ⟨idx - 1, by omega⟩
      have htk : (a :: t).take (k + 1) ≠ [] := by
        rw [List.take_succ_cons]
        exact List.cons_ne_nil _ _
      simp [hidx, htk]
    | none =>
      have hfr : (List.range (a :: t).length).find?
          (fun i => decide (0 < i) && beginsWith chartsDelim ((a :: t).drop i))
            = none := by
        apply List.find?_eq_none.mpr
        intro x _
        simp [(findSubstr_none_all hf).2 x]
      rw [hfr]
      rw [fallbackFirstSeg_spec ha]
      have hd1 : (a :: t).drop 1 = t := rfl
      rw [hd1]
      cases he : t.elem '/' <;> simp [he]

theorem inferRepoName_eq_spec (path : String) :
    inferRepoName path = inferNameSpec path := by
  unfold inferRepoName extractRepo inferNameSpec
  apply extractRepoTrimmed_matches_spec
  intro a t h
  exact trimLeftSlashes_head h

theorem fallbackFirstSeg_shape {p repo : List Char}
    (hhead : ∀ a t, p = a :: t → a ≠ '/')
    (h : fallbackFirstSeg p = some repo) :
    repo ≠ [] ∧ repo.head? ≠ some '/' ∧ findSubstr chartsDelim repo = none := by
  unfold fallbackFirstSeg at h
  split at h
  next i hio =>
    split at h
    next hi =>
      injection h with h
      subst h
      obtain ⟨a, t, rfl⟩ : ∃ a t, p = a :: t := by
        cases p with
        | nil => simp [idxOfByte] at hio
        | cons a t => exact ⟨a, t, rfl⟩
      have ha : a ≠ '/' := hhead a t rfl
      obtain ⟨k, rfl⟩ : ∃ k, i = k + 1 := ⟨i - 1, by omega⟩
      rw [List.take_succ_cons]
      refine ⟨List.cons_ne_nil _ _, by simp [ha], ?_⟩
      cases hfs : findSubstr chartsDelim (a :: List.take k t) with
      | none => rfl
      | some j =>
        exfalso
        have hat := findSubstr_at hfs
        have hcd : chartsDelim = '/' :: "charts/".toList := rfl
        rw [hcd] at hat
        obtain ⟨t', ht'⟩ := beginsWith_nonempty hat
        have hm : '/' ∈ (a :: List.take k t) := by
          have hmem : '/' ∈ (a :: List.take k t).drop j := by
            rw [ht']; exact List.mem_cons_self _ _
          exact List.mem_of_mem_drop hmem
        exact idxOfByte_take hio '/' (by rw [List.take_succ_cons]; exact hm) rfl
    next hi => exact absurd h (by simp)
  next hio => exact absurd h (by simp)

theorem extractRepo_shape {path repo : List Char}
    (h : extractRepo path = some repo) :
    repo ≠ [] ∧ repo.head? ≠ some '/' ∧ findSubstr chartsDelim repo = none := by
  unfold extractRepo extractRepoTrimmed at h
  set p := trimLeftSlashes path with hp
  have hhead : ∀ a t, p = a :: t → a ≠ '/' :=
    fun a t ht => trimLeftSlashes_head (by rw [← hp]; exact ht)
  split at h
  next hnil => exact absurd h (by simp)
  next hnil =>
    split at h
    next idx hf =>
      split at h
      next hi =>
        split at h
        next ht =>
          injection h with h
          subst h
          refine ⟨ht, ?_, findSubstr_take_eq_none (by decide) hf⟩
          obtain ⟨a, t, hpt⟩ : ∃ a t, p = a :: t := by
            cases hp2 : p with
            | nil => exact absurd hp2 hnil
            | cons a t => exact ⟨a, t, rfl⟩
          have ha := hhead a t hpt
          obtain ⟨k, rfl⟩ : ∃ k, idx = k + 1 := ⟨idx - 1, by omega⟩
          rw [hpt, List.take_succ_cons]
          simp [ha]
        next ht => exact absurd h (by simp)
      next hi => exact fallbackFirstSeg_shape hhead h
    next hf => exact fallbackFirstSeg_shape hhead h

theorem discoverReposLocalFSIter_eq_some {fs : LocalFS} {iter names : List String}
    (h : discoverReposLocalFSIter fs iter = some names) :
    names = sortStrings iter := by
  unfold discoverReposLocalFSIter at h
  split at h
  · exact absurd h (by simp)
  · split at h
    · exact absurd h (by simp)
    · split at h
      · exact absurd h (by simp)
      · split at h
        · exact absurd h (by simp)
        · injection h with h; exact h.symm

theorem discoverReposLocalFS_eq_some {fs : LocalFS} {names : List String}
    (h : discoverReposLocalFS fs = some names) :
    names = sortStrings (localKeys fs).dedup :=
  discoverReposLocalFSIter_eq_some h

theorem discoverReposFromStorage_ok {st : Storage} {pfx : String}
    {names : List String} (h : discoverReposFromStorage st pfx = .ok names) :
    ∃ objs, st.ListObjects pfx = .ok objs
      ∧ names = sortStrings (storageKeys objs).dedup := by
  unfold discoverReposFromStorage at h
  cases hst : st.ListObjects pfx with
  | error e => rw [hst] at h; exact absurd h (by simp)
  | ok objs =>
    rw [hst] at h
    injection h with h
    exact ⟨objs, rfl, h.symm⟩

theorem discoverReposLocalFSIter_perm {fs : LocalFS} {iter base : List String}
    (h : iter.Perm base) :
    discoverReposLocalFSIter fs iter = discoverReposLocalFSIter fs base := by
  have hemp : iter.isEmpty = base.isEmpty := by
    rcases iter with _ | ⟨a, t⟩ <;> rcases base with _ | ⟨b, u⟩ <;>
      first
        | rfl
        | (exfalso; simpa using h.length_eq)
  unfold discoverReposLocalFSIter
  rw [hemp, sortStrings_eq_of_perm h]

theorem discoverReposFromStorageIter_perm {st : Storage} {pfx : String}
    {iter base : List String} (h : iter.Perm base) :
    discoverReposFromStorageIter st pfx iter
      = discoverReposFromStorageIter st pfx base := by
  unfold discoverReposFromStorageIter
  cases st.ListObjects pfx with
  | error e => rfl
  | ok objs => rw [sortStrings_eq_of_perm h]

theorem mem_localKeys {fs : LocalFS} {x : String} :
    x ∈ localKeys fs ↔ ∃ e ∈ fs.entries, e.name = x ∧ entryQualifies e = true := by
  unfold localKeys
  rw [List.mem_map]
  constructor
  · rintro ⟨e, he, rfl⟩
    rw [List.mem_filter] at he
    exact ⟨e, he.1, rfl, he.2⟩
  · rintro ⟨e, he, rfl, hq⟩
    exact ⟨e, List.mem_filter.mpr ⟨he, hq⟩, rfl⟩

/-- C1: for every stored-object path, the Generic Object Discoverer infers a
repository name exactly as the spec describes — after stripping leading
slashes and skipping empty paths, cut before a `"/charts/"` found at a
position greater than zero, else take the first `'/'`-delimited segment when
a separator sits at a position greater than zero, else infer no name — and
the three example paths behave as stated. -/
theorem generic_discoverer_infers_names_as_specified :
    (∀ path : String, inferRepoName path = inferNameSpec path)
    ∧ inferRepoName "repoA/charts/webapp-0.1.0.tgz" = some "repoA"
    ∧ inferRepoName "repoB/webapp-0.2.0.tgz" = some "repoB"
    ∧ inferRepoName "justafile.tgz" = none :=
  ⟨inferRepoName_eq_spec, by decide, by decide, by decide⟩

/-- C2: in an applicable local-tree discovery, a directory name occurs in
the result exactly once when some entry of that name is a qualifying
directory and not at all otherwise; and every name produced by the generic
object discovery is inferred from at least one listed object. -/
theorem local_tree_membership_exact :
    (∀ (fs : LocalFS) (names : List String) (d : String),
        discoverReposLocalFS fs = some names →
        (names.count d = 1 ↔ ∃ e ∈ fs.entries, e.name = d ∧ entryQualifies e = true)
        ∧ (names.count d = 0 ↔ ¬∃ e ∈ fs.entries, e.name = d ∧ entryQualifies e = true))
    ∧ (∀ (st : Storage) (pfx : String) (objs : List StoredObject) (names : List String),
        st.ListObjects pfx = .ok objs → discoverReposFromStorage st pfx = .ok names →
        ∀ n ∈ names, ∃ o ∈ objs, inferRepoName o.Path = some n) := by
  constructor
  · intro fs names d h
    have hnames := discoverReposLocalFS_eq_some h
    have hnodup : names.Nodup := by
      rw [hnames]; exact sortStrings_nodup (List.nodup_dedup _)
    have hmem : d ∈ names ↔ ∃ e ∈ fs.entries, e.name = d ∧ entryQualifies e = true := by
      rw [hnames, mem_sortStrings, List.mem_dedup]; exact mem_localKeys
    constructor
    · constructor
      · intro hc
        exact hmem.mp (List.count_pos_iff.mp (by omega))
      · intro he
        exact List.count_eq_one_of_mem hnodup (hmem.mpr he)
    · constructor
      · intro hc he
        have := List.count_eq_one_of_mem hnodup (hmem.mpr he)
        omega
      · intro he
        exact List.count_eq_zero.mpr (fun hd => he (hmem.mp hd))
  · intro st pfx objs names hst hok n hn
    obtain ⟨objs', hst', hnames⟩ := discoverReposFromStorage_ok hok
    rw [hst] at hst'
    injection hst' with hst'
    subst hst'
    rw [hnames, mem_sortStrings, List.mem_dedup] at hn
    unfold storageKeys at hn
    exact List.mem_filterMap.mp hn

theorem local_tree_membership_exact_witness :
    ((["repoA", "repoB"].count "repoA" = 1
        ↔ ∃ e ∈ sampleFS.entries, e.name = "repoA" ∧ entryQualifies e = true)
      ∧ (["repoA", "repoB"].count "repoA" = 0
        ↔ ¬∃ e ∈ sampleFS.entries, e.name = "repoA" ∧ entryQualifies e = true))
    ∧ ∃ o ∈ sampleObjs, inferRepoName o.Path = some "t1" :=
  ⟨local_tree_membership_exact.1 sampleFS ["repoA", "repoB"] "repoA" (by decide),
   local_tree_membership_exact.2 sampleStorage "" sampleObjs ["t1", "t2"]
     rfl rfl "t1" (by decide)⟩

/-- C3: whenever the Local-Tree Discoverer is applicable, the handler
responds 200 with its sorted result and the storage listing is never
invoked. -/
theorem local_discovery_short_circuits (cfg : ServerConfig) (fs : LocalFS)
    (st : Storage) (names : List String)
    (h : discoverReposLocalFS fs = some names) :
    listRepositoriesHandler cfg fs st = (⟨200, .names names⟩, ⟨true, false⟩) := by
  simp [listRepositoriesHandler, listRepositoriesHandlerGate, allowListRepos, h]

theorem local_discovery_short_circuits_witness :
    listRepositoriesHandler ⟨true⟩ sampleFS sampleStorage
      = (⟨200, .names ["repoA", "repoB"]⟩, ⟨true, false⟩) :=
  local_discovery_short_circuits ⟨true⟩ sampleFS sampleStorage
    ["repoA", "repoB"] (by decide)

/-- C4: when the local root is unset, not an existing directory, its
enumeration fails, or no child directory qualifies, the Local-Tree
Discoverer is inapplicable (it signals `none`, surfacing no error) and the
handler returns the Generic Object Discoverer's result or error, invoked
with an empty prefix. -/
theorem local_inapplicable_falls_back (cfg : ServerConfig) (fs : LocalFS)
    (st : Storage)
    (h : fs.rootDir = "" ∨ fs.rootIsDir = false ∨ fs.readDirOk = false
        ∨ ∀ e ∈ fs.entries, entryQualifies e = false) :
    discoverReposLocalFS fs = none
    ∧ listRepositoriesHandler cfg fs st
        = (match discoverReposFromStorage st "" with
           | .error e => (⟨500, .errMsg e⟩, ⟨true, true⟩)
           | .ok names => (⟨200, .names names⟩, ⟨true, true⟩)) := by
  have hnone : discoverReposLocalFS fs = none := by
    unfold discoverReposLocalFS discoverReposLocalFSIter
    rcases h with h | h | h | h
    · simp [h]
    · simp [h]
    · simp [h]
    · have hfil : fs.entries.filter entryQualifies = [] :=
        List.filter_eq_nil_iff.mpr (fun e he => by simp [h e he])
      simp [localKeys, hfil]
  refine ⟨hnone, ?_⟩
  cases hst : discoverReposFromStorage st "" with
  | error e =>
    simp [listRepositoriesHandler, listRepositoriesHandlerGate, allowListRepos,
      hnone, hst]
  | ok names =>
    simp [listRepositoriesHandler, listRepositoriesHandlerGate, allowListRepos,
      hnone, hst]

theorem local_inapplicable_falls_back_witness :
    discoverReposLocalFS unsetFS = none
    ∧ listRepositoriesHandler ⟨true⟩ unsetFS sampleStorage
        = (match discoverReposFromStorage sampleStorage "" with
           | .error e => (⟨500, .errMsg e⟩, ⟨true, true⟩)
           | .ok names => (⟨200, .names names⟩, ⟨true, true⟩)) :=
  local_inapplicable_falls_back ⟨true⟩ unsetFS sampleStorage (Or.inl rfl)

/-- C5: an error from `ListObjects` is propagated verbatim by the Generic
Object Discoverer (no names, no retry, no further fallback), and the
handler then responds 500 carrying that error's message. -/
theorem listing_error_propagates_verbatim :
    (∀ (st : Storage) (pfx e : String),
        st.ListObjects pfx = .error e →
        discoverReposFromStorage st pfx = .error e)
    ∧ (∀ (cfg : ServerConfig) (fs : LocalFS) (st : Storage) (e : String),
        discoverReposLocalFS fs = none → st.ListObjects "" = .error e →
        listRepositoriesHandler cfg fs st = (⟨500, .errMsg e⟩, ⟨true, true⟩)) := by
  constructor
  · intro st pfx e h
    simp [discoverReposFromStorage, h]
  · intro cfg fs st e hfs hst
    simp [listRepositoriesHandler, listRepositoriesHandlerGate, allowListRepos,
      hfs, discoverReposFromStorage, hst]

theorem listing_error_propagates_verbatim_witness :
    discoverReposFromStorage failingStorage "" = .error "listing failed"
    ∧ listRepositoriesHandler ⟨true⟩ unsetFS failingStorage
        = (⟨500, .errMsg "listing failed"⟩, ⟨true, true⟩) :=
  ⟨listing_error_propagates_verbatim.1 failingStorage "" "listing failed" rfl,
   listing_error_propagates_verbatim.2 ⟨true⟩ unsetFS failingStorage
     "listing failed" (by decide) rfl⟩

/-- C6: a denying Access Gate verdict makes the handler respond 403 with
the fixed error body, touching neither the local filesystem nor the storage
listing. -/
theorem gate_denial_is_terminal (fs : LocalFS) (st : Storage) :
    listRepositoriesHandlerGate false fs st
      = (⟨403, .errMsg "listing repositories is disabled"⟩, ⟨false, false⟩) := rfl

/-- C7: for any input, each discovery strategy's successful result is
lexicographically sorted and free of duplicates. -/
theorem discovery_results_sorted_and_nodup :
    (∀ (fs : LocalFS) (names : List String),
        discoverReposLocalFS fs = some names →
        List.Sorted strLeR names ∧ names.Nodup)
    ∧ (∀ (st : Storage) (pfx : String) (names : List String),
        discoverReposFromStorage st pfx = .ok names →
        List.Sorted strLeR names ∧ names.Nodup) := by
  constructor
  · intro fs names h
    rw [discoverReposLocalFS_eq_some h]
    exact ⟨sortStrings_sorted _, sortStrings_nodup (List.nodup_dedup _)⟩
  · intro st pfx names h
    obtain ⟨objs, _, hnames⟩ := discoverReposFromStorage_ok h
    rw [hnames]
    exact ⟨sortStrings_sorted _, sortStrings_nodup (List.nodup_dedup _)⟩

theorem discovery_results_sorted_and_nodup_witness :
    (List.Sorted strLeR ["repoA", "repoB"] ∧ List.Nodup ["repoA", "repoB"])
    ∧ (List.Sorted strLeR ["t1", "t2"] ∧ List.Nodup ["t1", "t2"]) :=
  ⟨discovery_results_sorted_and_nodup.1 sampleFS ["repoA", "repoB"] (by decide),
   discovery_results_sorted_and_nodup.2 sampleStorage "" ["t1", "t2"] rfl⟩

/-- C8: against an unchanged store the discoverers are deterministic: any
two set-iteration orders (permutations of the distinct keys) produce the
same output, which is the canonical one — so repeated calls return
identical sorted sequences. -/
theorem repeated_discovery_identical :
    (∀ (fs : LocalFS) (iter₁ iter₂ : List String),
        iter₁.Perm (localKeys fs).dedup → iter₂.Perm (localKeys fs).dedup →
        discoverReposLocalFSIter fs iter₁ = discoverReposLocalFSIter fs iter₂
        ∧ discoverReposLocalFSIter fs iter₁ = discoverReposLocalFS fs)
    ∧ (∀ (st : Storage) (pfx : String) (objs : List StoredObject)
        (iter₁ iter₂ : List String),
        st.ListObjects pfx = .ok objs →
        iter₁.Perm (storageKeys objs).dedup → iter₂.Perm (storageKeys objs).dedup →
        discoverReposFromStorageIter st pfx iter₁
          = discoverReposFromStorageIter st pfx iter₂
        ∧ discoverReposFromStorageIter st pfx iter₁
          = discoverReposFromStorage st pfx) := by
  constructor
  · intro fs iter₁ iter₂ h1 h2
    have e1 := @discoverReposLocalFSIter_perm fs iter₁ ((localKeys fs).dedup) h1
    have e2 := @discoverReposLocalFSIter_perm fs iter₂ ((localKeys fs).dedup) h2
    exact ⟨e1.trans e2.symm, e1⟩
  · intro st pfx objs iter₁ iter₂ hst h1 h2
    have e1 := @discoverReposFromStorageIter_perm st pfx iter₁
      ((storageKeys objs).dedup) h1
    have e2 := @discoverReposFromStorageIter_perm st pfx iter₂
      ((storageKeys objs).dedup) h2
    refine ⟨e1.trans e2.symm, e1.trans ?_⟩
    simp [discoverReposFromStorageIter, discoverReposFromStorage, hst]

theorem repeated_discovery_identical_witness :
    (discoverReposLocalFSIter sampleFS ["repoB", "repoA"]
        = discoverReposLocalFSIter sampleFS ["repoA", "repoB"]
      ∧ discoverReposLocalFSIter sampleFS ["repoB", "repoA"]
        = discoverReposLocalFS sampleFS)
    ∧ (discoverReposFromStorageIter sampleStorage "" ["t2", "t1"]
        = discoverReposFromStorageIter sampleStorage "" ["t1", "t2"]
      ∧ discoverReposFromStorageIter sampleStorage "" ["t2", "t1"]
        = discoverReposFromStorage sampleStorage "") :=
  ⟨repeated_discovery_identical.1 sampleFS ["repoB", "repoA"] ["repoA", "repoB"]
     (by decide) (by decide),
   repeated_discovery_identical.2 sampleStorage "" sampleObjs ["t2", "t1"]
     ["t1", "t2"] rfl (by decide) (by decide)⟩

/-- C9: `allowListRepos` is constantly `true` regardless of configuration,
so the handler's 403 branch is unreachable and discovery always runs. -/
theorem gate_always_allows :
    (∀ cfg : ServerConfig, allowListRepos cfg = true)
    ∧ (∀ (cfg : ServerConfig) (fs : LocalFS) (st : Storage),
        listRepositoriesHandler cfg fs st = listRepositoriesHandlerGate true fs st
        ∧ (listRepositoriesHandler cfg fs st).1.status ≠ 403) := by
  refine ⟨fun _ => rfl, fun cfg fs st => ⟨rfl, ?_⟩⟩
  show (listRepositoriesHandlerGate true fs st).1.status ≠ 403
  unfold listRepositoriesHandlerGate
  cases hl : discoverReposLocalFS fs with
  | some names => simp
  | none =>
    cases hst : discoverReposFromStorage st "" with
    | error e => simp [hst]
    | ok names => simp [hst]

/-- C10: every name produced by the Generic Object Discoverer is non-empty,
does not start with `'/'`, and does not contain the substring
`"/charts/"`. -/
theorem storage_names_well_shaped (st : Storage) (pfx : String)
    (names : List String) (n : String)
    (hok : discoverReposFromStorage st pfx = .ok names) (hn : n ∈ names) :
    n.toList ≠ [] ∧ n.toList.head? ≠ some '/'
      ∧ findSubstr chartsDelim n.toList = none := by
  obtain ⟨objs, _, hnames⟩ := discoverReposFromStorage_ok hok
  rw [hnames, mem_sortStrings, List.mem_dedup] at hn
  unfold storageKeys at hn
  obtain ⟨o, _, hio⟩ := List.mem_filterMap.mp hn
  unfold inferRepoName at hio
  obtain ⟨r, hr, hrn⟩ := Option.map_eq_some'.mp hio
  subst hrn
  exact extractRepo_shape hr

theorem storage_names_well_shaped_witness :
    "t1".toList ≠ [] ∧ "t1".toList.head? ≠ some '/'
      ∧ findSubstr chartsDelim "t1".toList = none :=
  storage_names_well_shaped sampleStorage "" ["t1", "t2"] "t1" rfl (by decide)

end CM
